import Mathlib

/-!
Verification of the Modified UTF-8 codec (hotspot utf8.cpp).

Shallow embedding conventions:
- A byte buffer is a `List Nat`; reading memory at an index goes through
  `byteAt`, which truncates to an unsigned char (`% 256`) exactly as the C
  code reads `unsigned char` values.  Reading past the end yields 0, which
  models reading the NUL terminator that follows every buffer in the VM.
- A `jchar` parameter is a `Nat` truncated to 16 bits (`% 65536`) on entry.
- Functions that write through an output pointer are modelled as returning
  the list of bytes written, in order.
- Imperative index loops become structural or well-founded recursion; each
  branch is annotated with the source lines it mirrors.
-/

set_option maxRecDepth 100000

/-- Read one `unsigned char` from a buffer (out-of-range reads give 0,
the terminator byte that follows every VM buffer). -/
def byteAt (s : List Nat) (i : Nat) : Nat := s.getD i 0 % 256

/-- Mirrors `utf8_write` (utf8.cpp lines 155-177): writes one jchar in
Modified UTF-8 and returns the bytes written.  The argument is truncated
to the 16-bit `jchar` range first. -/
def utf8_write (ch : Nat) : List Nat :=
  let c := ch % 65536
  if c ≠ 0 ∧ c ≤ 0x7F then
    [c]
  else if c ≤ 0x7FF then
    -- 11 bits or less: 110xxxxx 10xxxxxx
    [(c >>> 6) ||| 0xC0, (c &&& 0x3F) ||| 0x80]
  else
    -- possibly full 16 bits: 1110xxxx 10xxxxxx 10xxxxxx
    [(c >>> 12) ||| 0xE0, ((c >>> 6) &&& 0x3F) ||| 0x80, (c &&& 0x3F) ||| 0x80]

/-- Mirrors `UTF8::next` (utf8.cpp lines 34-84) for the `jchar`
instantiation: returns the decoded value and the number of bytes
consumed.  The switch on the high nibble of the lead byte becomes a
chain of conditionals; every branch that leaves `length <= 0` in the C
code returns the raw lead byte and consumes one byte. -/
def UTF8.next (s : List Nat) : Nat × Nat :=
  let ch := byteAt s 0
  let nib := ch >>> 4
  if nib = 0x8 ∨ nib = 0x9 ∨ nib = 0xA ∨ nib = 0xB ∨ nib = 0xF then
    -- case 0x8 0x9 0xA 0xB 0xF: length stays -1, bad result path
    (ch, 1)
  else if nib = 0xC ∨ nib = 0xD then
    -- 110xxxxx 10xxxxxx
    let ch2 := byteAt s 1
    if ch2 &&& 0xC0 = 0x80 then
      (((ch &&& 0x1F) <<< 6) + (ch2 &&& 0x3F), 2)
    else
      (ch, 1)
  else if nib = 0xE then
    -- 1110xxxx 10xxxxxx 10xxxxxx
    let ch2 := byteAt s 1
    if ch2 &&& 0xC0 = 0x80 then
      let ch3 := byteAt s 2
      if ch3 &&& 0xC0 = 0x80 then
        (((((ch &&& 0x0F) <<< 6) + (ch2 &&& 0x3F)) <<< 6) + (ch3 &&& 0x3F), 3)
      else
        (ch, 1)
    else
      (ch, 1)
  else
    -- default: single byte, result is the byte itself
    (ch, 1)

/-- Mirrors `UTF8::is_supplementary_character` (utf8.cpp lines 328-331):
tests the 6-byte pattern 11101101 1010xxxx 10xxxxxx 11101101 1011xxxx
10xxxxxx. -/
def UTF8.is_supplementary_character (s : List Nat) : Bool :=
  decide (byteAt s 0 = 0xED ∧ byteAt s 1 &&& 0xF0 = 0xA0 ∧ byteAt s 2 &&& 0xC0 = 0x80
    ∧ byteAt s 3 = 0xED ∧ byteAt s 4 &&& 0xF0 = 0xB0 ∧ byteAt s 5 &&& 0xC0 = 0x80)

/-- Mirrors `UTF8::get_supplementary_character` (utf8.cpp lines 333-336). -/
def UTF8.get_supplementary_character (s : List Nat) : Nat :=
  0x10000 + ((byteAt s 1 &&& 0x0F) <<< 16) + ((byteAt s 2 &&& 0x3F) <<< 10)
          + ((byteAt s 4 &&& 0x0F) <<< 6) + (byteAt s 5 &&& 0x3F)

/-- Mirrors `UTF8::next_character` (utf8.cpp lines 86-98). -/
def UTF8.next_character (s : List Nat) : Nat × Nat :=
  if UTF8.is_supplementary_character s then
    (UTF8.get_supplementary_character s, 6)
  else
    UTF8.next s

/-- Loop body of `UTF8::unicode_length` for known length (utf8.cpp lines
109-127).  State is (num_chars, is_latin1, has_multibyte) together with
the previous byte `prev`; one step per buffer byte. -/
def UTF8.unicode_length_go : List Nat → Nat × Bool × Bool → Nat → Nat × Bool × Bool
  | [], st, _ => st
  | b :: rest, (num, lat, multi), prev =>
    let c := b % 256
    if c &&& 0xC0 = 0x80 then
      -- multibyte continuation: count down, latin1 check against prev
      UTF8.unicode_length_go rest (num - 1, if 0xC3 < prev then false else lat, true) c
    else
      UTF8.unicode_length_go rest (num, lat, multi) c

/-- Mirrors `UTF8::unicode_length(str, len, is_latin1, has_multibyte)`
(utf8.cpp lines 109-127): returns (num_chars, is_latin1, has_multibyte).
`num_chars` starts at `len` and is decremented per continuation byte. -/
def UTF8.unicode_length (str : List Nat) (len : Nat) : Nat × Bool × Bool :=
  UTF8.unicode_length_go (str.take len) (len, true, false) 0

/-- Byte-by-byte phase of `UTF8::is_legal_utf8` (utf8.cpp lines 357-397),
expressed on the remaining suffix of the counted buffer: position `i` of
the C loop corresponds to the suffix starting at `i`, so the C bound
checks `i + k < length` become length tests on the suffix, and the reads
`buffer[i+k]` become `byteAt` reads into the suffix.  The extra fuel
argument makes the recursion structural; one unit of fuel is spent per
loop iteration, and since every iteration consumes at least one byte,
fuel equal to the buffer length (as supplied by `UTF8.legal_scan`) can
never run out.  The fuel-exhaustion case answers `false` but is
unreachable whenever the suffix length is at most the fuel. -/
def UTF8.legal_scan_go (v47 : Bool) : Nat → List Nat → Bool
  | _, [] => true
  | 0, _ :: _ => false
  | fuel + 1, b :: rest =>
    let b0 := b % 256
    if b0 = 0 then false                    -- no embedded zeros
    else if b0 < 128 then UTF8.legal_scan_go v47 fuel rest
    else if 5 < (b :: rest).length ∧ UTF8.is_supplementary_character (b :: rest) = true then
      -- legal supplementary character: i += 5 and continue
      UTF8.legal_scan_go v47 fuel (rest.drop 5)
    else
      let nib := b0 >>> 4
      if nib = 0x8 ∨ nib = 0x9 ∨ nib = 0xA ∨ nib = 0xB ∨ nib = 0xF then false
      else if nib = 0xC ∨ nib = 0xD then     -- 110xxxxx 10xxxxxx
        if 0 < rest.length ∧ byteAt rest 0 &&& 0xC0 = 0x80 then
          let c := ((b0 &&& 0x1F) <<< 6) + (byteAt rest 0 &&& 0x3F)
          if v47 = true ∨ c = 0 ∨ 0x80 ≤ c then UTF8.legal_scan_go v47 fuel (rest.drop 1)
          else false
        else false
      else if nib = 0xE then                 -- 1110xxxx 10xxxxxx 10xxxxxx
        if 1 < rest.length ∧ byteAt rest 0 &&& 0xC0 = 0x80 ∧ byteAt rest 1 &&& 0xC0 = 0x80 then
          let c := ((b0 &&& 0xF) <<< 12) + ((byteAt rest 0 &&& 0x3F) <<< 6)
              + (byteAt rest 1 &&& 0x3F)
          if v47 = true ∨ 0x800 ≤ c then UTF8.legal_scan_go v47 fuel (rest.drop 2)
          else false
        else false
      else UTF8.legal_scan_go v47 fuel rest  -- switch default (unreachable for bytes ≥ 128)

/-- Byte-by-byte phase of the validator on a byte suffix, with the fuel
fixed to the suffix length. -/
def UTF8.legal_scan (v47 : Bool) (s : List Nat) : Bool :=
  UTF8.legal_scan_go v47 s.length s

/-- One summand of the ASCII fast-path test (utf8.cpp lines 347-353):
the C expression `v | (v - 1)` on `unsigned char`, where the subtraction
wraps for v = 0 (int -1 truncated back to a byte is 255). -/
def UTF8.fast_term (b : Nat) : Nat :=
  (b % 256) ||| ((b % 256 + 255) % 256)

/-- Fast-path loop of `UTF8::is_legal_utf8` (utf8.cpp lines 340-356):
skips 4-byte blocks whose combined term has the high bit clear, and
returns the suffix at which the byte-by-byte phase starts.  The counter
argument is `length >> 2` and the fall-through case for a too-short
suffix cannot occur when `4 * count ≤ length`. -/
def UTF8.fast_skip (s : List Nat) : Nat → List Nat
  | 0 => s
  | k + 1 =>
    match s with
    | b0 :: b1 :: b2 :: b3 :: rest =>
      if UTF8.fast_term b0 ||| UTF8.fast_term b1 ||| UTF8.fast_term b2 ||| UTF8.fast_term b3 < 128 then
        UTF8.fast_skip rest k
      else s
    | _ => s

/-- Mirrors `UTF8::is_legal_utf8` (utf8.cpp lines 338-398): the ASCII
fast path over `length >> 2` blocks followed by the byte-by-byte phase
from where the fast path stopped.  `take length` restricts to the
counted region of the buffer. -/
def UTF8.is_legal_utf8 (buffer : List Nat) (length : Nat) (v47 : Bool) : Bool :=
  UTF8.legal_scan v47 (UTF8.fast_skip (buffer.take length) (length >>> 2))

/-- Validator variant that runs the byte-by-byte phase from index 0 with
no fast path; comparison point for the fast-path refinement. -/
def UTF8.is_legal_utf8_nofast (buffer : List Nat) (length : Nat) (v47 : Bool) : Bool :=
  UTF8.legal_scan v47 (buffer.take length)

/-- Mirrors `is_starting_byte` (utf8.cpp lines 402-404). -/
def is_starting_byte (b : Nat) : Bool :=
  decide (0xC0 ≤ b ∧ b ≤ 0xEF)

/-- Backward scan of `UTF8::truncate_to_legal_utf8` (utf8.cpp lines
441-460): the argument is the current index; the loop runs while the
index is positive and writes a NUL at the chosen boundary. -/
def UTF8.truncate_loop (buffer : List Nat) : Nat → List Nat
  | 0 => buffer
  | index + 1 =>
    let idx := index + 1
    let b := byteAt buffer idx
    if is_starting_byte b then
      -- 0xED could be the fourth byte of a 6-byte encoding: if the three
      -- preceding bytes encode a high surrogate, truncate 3 bytes earlier.
      let idx2 :=
        if b = 0xED ∧ 3 ≤ idx ∧ byteAt buffer (idx - 3) = 0xED
            ∧ byteAt buffer (idx - 2) &&& 0xF0 = 0xA0 then
          idx - 3
        else idx
      buffer.set idx2 0
    else
      UTF8.truncate_loop buffer index

/-- Mirrors `UTF8::truncate_to_legal_utf8` (utf8.cpp lines 413-461).
Preconditions asserted by the C code: `length > 5` and
`buffer[length-1] = 0`. -/
def UTF8.truncate_to_legal_utf8 (buffer : List Nat) (length : Nat) : List Nat :=
  if byteAt buffer (length - 2) < 128 then buffer
  else UTF8.truncate_loop buffer (length - 2)

/-- First scanning loop of `UTF8::from_quoted_ascii` (utf8.cpp lines
247-250), with explicit fuel.  The loop body reads `*ptr` as a signed
char and breaks when it is below 32 or at least 127 (bytes ≥ 128 are
negative as signed chars, hence also break); crucially the source loop
body never advances `ptr`, which the recursion reproduces by keeping the
position argument unchanged.  `none` means the fuel ran out with the
loop still running. -/
def UTF8.from_quoted_ascii_scan (s : List Nat) (p : Nat) : Nat → Option Nat
  | 0 => none
  | fuel + 1 =>
    let b := byteAt s p
    if b = 0 then some p
    else if b < 32 ∨ 127 ≤ b then some p
    else UTF8.from_quoted_ascii_scan s p fuel

/-- Mirrors `UNICODE::utf8_size(jchar)` (utf8.cpp lines 478-487). -/
def UNICODE.utf8_size (c : Nat) : Nat :=
  let c2 := c % 65536
  if 1 ≤ c2 ∧ c2 ≤ 0x7F then 1
  else if c2 ≤ 0x7FF then 2
  else 3

/-- Mirrors `UNICODE::utf8_length` for jchar input (utf8.cpp lines
501-508): sum of `utf8_size` over the code units. -/
def UNICODE.utf8_length : List Nat → Nat
  | [] => 0
  | c :: rest => UNICODE.utf8_size c + UNICODE.utf8_length rest

/-- Loop of `UNICODE::as_utf8(jchar*, length, buf, buflen)` (utf8.cpp
lines 539-551): writes units while the encoded size fits strictly below
the remaining capacity, and returns the bytes written (terminator not
included). -/
def UNICODE.as_utf8_go : List Nat → Nat → List Nat
  | [], _ => []
  | c :: rest, buflen =>
    let sz := UNICODE.utf8_size c
    if buflen ≤ sz then []                 -- sz >= buflen: string is truncated
    else utf8_write c ++ UNICODE.as_utf8_go rest (buflen - sz)

/-- Mirrors `UNICODE::as_utf8(jchar*, length, buf, buflen)` including the
final NUL store: the returned list is everything written into `buf`. -/
def UNICODE.as_utf8 (base : List Nat) (buflen : Nat) : List Nat :=
  UNICODE.as_utf8_go base buflen ++ [0]

/-- Byte stream written by `UNICODE::convert_to_utf8` (utf8.cpp lines
575-580) before the terminator: one `utf8_write` per code unit. -/
def UNICODE.convert_to_utf8_bytes : List Nat → List Nat
  | [] => []
  | c :: rest => utf8_write c ++ UNICODE.convert_to_utf8_bytes rest

/-- Mirrors `UNICODE::convert_to_utf8` including the final NUL store. -/
def UNICODE.convert_to_utf8 (base : List Nat) : List Nat :=
  UNICODE.convert_to_utf8_bytes base ++ [0]

/-- Length of the initial run of nonzero bytes: the `strlen` used by the
auto-sizing `UNICODE::as_utf8` overload to check its length prediction
(utf8.cpp line 533). -/
def cstrlen (s : List Nat) : Nat :=
  (s.takeWhile (fun b => b ≠ 0)).length

/-- UTF-16 code units of a code point (one unit below 0x10000, else the
surrogate pair), as used by the round-trip property: the encoder is
applied once per UTF-16 code unit. -/
def utf16_units (p : Nat) : List Nat :=
  if p < 0x10000 then [p]
  else [0xD800 + ((p - 0x10000) >>> 10), 0xDC00 + ((p - 0x10000) &&& 0x3FF)]

/-- Modified UTF-8 encoding of a code point: `utf8_write` applied once
per UTF-16 code unit. -/
def encode_cp (p : Nat) : List Nat :=
  UNICODE.convert_to_utf8_bytes (utf16_units p)

/-- Byte count table for Modified UTF-8: 2 for 0, 1 for 0x01..0x7F, 2 for
0x80..0x7FF, 3 for 0x800..0xFFFF, 6 above. -/
def mutf8_size_table (p : Nat) : Nat :=
  if p = 0 then 2
  else if p ≤ 0x7F then 1
  else if p ≤ 0x7FF then 2
  else if p ≤ 0xFFFF then 3
  else 6

/-! Helper lemmas: buffer reads. -/

theorem byteAt_nil (i : Nat) : byteAt [] i = 0 := by
  simp [byteAt]

theorem byteAt_cons_zero (a : Nat) (l : List Nat) : byteAt (a :: l) 0 = a % 256 := rfl

theorem byteAt_cons_succ (a : Nat) (l : List Nat) (i : Nat) :
    byteAt (a :: l) (i + 1) = byteAt l i := rfl

theorem byteAt_lt (s : List Nat) (i : Nat) : byteAt s i < 256 :=
  Nat.mod_lt _ (by omega)

theorem byteAt_append_right (l l' : List Nat) (i : Nat) :
    byteAt (l ++ l') (l.length + i) = byteAt l' i := by
  induction l with
  | nil => simp
  | cons a t ih =>
    have : t.length + 1 + i = (t.length + i) + 1 := by omega
    simp only [List.cons_append, List.length_cons, this, byteAt_cons_succ]
    exact ih

theorem byteAt_append_left (l l' : List Nat) (i : Nat) (h : i < l.length) :
    byteAt (l ++ l') i = byteAt l i := by
  induction l generalizing i with
  | nil => simp at h
  | cons a t ih =>
    cases i with
    | zero => rfl
    | succ j =>
      simp only [List.cons_append, byteAt_cons_succ]
      exact ih j (by simpa using Nat.lt_of_succ_lt_succ h)

/-! Helper lemmas: bit arithmetic on small ranges. -/

theorem nat_and_63 (n : Nat) : n &&& 0x3F = n % 64 := by
  simpa using Nat.and_pow_two_sub_one_eq_mod n 6

theorem nat_and_1023 (n : Nat) : n &&& 0x3FF = n % 1024 := by
  simpa using Nat.and_pow_two_sub_one_eq_mod n 10

theorem nat_shr_4 (n : Nat) : n >>> 4 = n / 16 := by
  simpa using Nat.shiftRight_eq_div_pow n 4

theorem nat_shr_6 (n : Nat) : n >>> 6 = n / 64 := by
  simpa using Nat.shiftRight_eq_div_pow n 6

theorem nat_shr_10 (n : Nat) : n >>> 10 = n / 1024 := by
  simpa using Nat.shiftRight_eq_div_pow n 10

theorem nat_shr_12 (n : Nat) : n >>> 12 = n / 4096 := by
  simpa using Nat.shiftRight_eq_div_pow n 12

theorem nat_shl_6 (n : Nat) : n <<< 6 = n * 64 := by
  simpa using Nat.shiftLeft_eq n 6

theorem nat_shl_10 (n : Nat) : n <<< 10 = n * 1024 := by
  simpa using Nat.shiftLeft_eq n 10

theorem nat_shl_12 (n : Nat) : n <<< 12 = n * 4096 := by
  simpa using Nat.shiftLeft_eq n 12

theorem nat_shl_16 (n : Nat) : n <<< 16 = n * 65536 := by
  simpa using Nat.shiftLeft_eq n 16

theorem or_C0 : ∀ x : Nat, x < 32 → x ||| 0xC0 = 192 + x := by decide

theorem or_80 : ∀ x : Nat, x < 64 → x ||| 0x80 = 128 + x := by decide

theorem or_E0 : ∀ x : Nat, x < 16 → x ||| 0xE0 = 224 + x := by decide

theorem and_C0_cont : ∀ x : Nat, x < 64 → (128 + x) &&& 0xC0 = 0x80 := by decide

theorem and_1F_lead2 : ∀ q : Nat, q < 32 → (192 + q) &&& 0x1F = q := by decide

theorem and_0F_lead3 : ∀ k : Nat, k < 16 → (224 + k) &&& 0xF = k := by decide

theorem and_3F_cont : ∀ x : Nat, x < 64 → (128 + x) &&& 0x3F = x := by decide

theorem and_F0_hi : ∀ x : Nat, x < 16 → (160 + x) &&& 0xF0 = 0xA0 := by decide

theorem and_F0_lo : ∀ x : Nat, x < 16 → (176 + x) &&& 0xF0 = 0xB0 := by decide

theorem and_0F_hi : ∀ x : Nat, x < 16 → (160 + x) &&& 0x0F = x := by decide

theorem and_0F_lo : ∀ x : Nat, x < 16 → (176 + x) &&& 0x0F = x := by decide

/-! Helper lemmas: shapes of the encoder output. -/

theorem utf8_write_eq_one (d : Nat) (h1 : 1 ≤ d) (h2 : d ≤ 0x7F) :
    utf8_write d = [d] := by
  have hm : d % 65536 = d := Nat.mod_eq_of_lt (by omega)
  simp only [utf8_write, hm]
  rw [if_pos ⟨by omega, h2⟩]

theorem utf8_write_eq_two (d : Nat) (hlt : d < 65536)
    (h : d = 0 ∨ (0x80 ≤ d ∧ d ≤ 0x7FF)) :
    utf8_write d = [192 + d / 64, 128 + d % 64] := by
  have hm : d % 65536 = d := Nat.mod_eq_of_lt hlt
  simp only [utf8_write, hm]
  rw [if_neg (by omega), if_pos (by omega)]
  have hq : d >>> 6 = d / 64 := nat_shr_6 d
  have hr : d &&& 0x3F = d % 64 := nat_and_63 d
  rw [hq, hr, or_C0 (d / 64) (by omega), or_80 (d % 64) (by omega)]

theorem utf8_write_eq_three (d : Nat) (h8 : 0x800 ≤ d) (hlt : d < 65536) :
    utf8_write d = [224 + d / 4096, 128 + d / 64 % 64, 128 + d % 64] := by
  have hm : d % 65536 = d := Nat.mod_eq_of_lt hlt
  simp only [utf8_write, hm]
  rw [if_neg (by omega), if_neg (by omega)]
  rw [nat_shr_12 d, nat_shr_6 d, nat_and_63 d, nat_and_63 (d / 64)]
  rw [or_E0 (d / 4096) (by omega), or_80 (d / 64 % 64) (by omega),
      or_80 (d % 64) (by omega)]

theorem utf8_write_mask (ch : Nat) : utf8_write ch = utf8_write (ch % 65536) := by
  simp [utf8_write, Nat.mod_mod_of_dvd]

theorem utf8_write_length (c : Nat) :
    (utf8_write c).length = UNICODE.utf8_size c := by
  have hdlt : c % 65536 < 65536 := Nat.mod_lt _ (by omega)
  rw [utf8_write_mask]
  simp only [UNICODE.utf8_size]
  rcases Nat.eq_zero_or_pos (c % 65536) with h0 | h0
  · rw [h0]
    decide
  · rcases Nat.lt_or_ge (c % 65536) 0x80 with ha | ha
    · rw [utf8_write_eq_one _ h0 (by omega), if_pos ⟨h0, by omega⟩]
      rfl
    · rcases Nat.lt_or_ge (c % 65536) 0x800 with hb | hb
      · rw [utf8_write_eq_two _ hdlt (Or.inr ⟨ha, by omega⟩),
            if_neg (by omega), if_pos (by omega)]
        rfl
      · rw [utf8_write_eq_three _ hb hdlt, if_neg (by omega), if_neg (by omega)]
        rfl

theorem utf8_write_mem (c : Nat) : ∀ b ∈ utf8_write c, 1 ≤ b ∧ b < 256 := by
  have hdlt : c % 65536 < 65536 := Nat.mod_lt _ (by omega)
  rw [utf8_write_mask]
  rcases Nat.eq_zero_or_pos (c % 65536) with h0 | h0
  · rw [h0]
    decide
  · rcases Nat.lt_or_ge (c % 65536) 0x80 with ha | ha
    · rw [utf8_write_eq_one _ h0 (by omega)]
      intro b hb
      simp at hb
      omega
    · rcases Nat.lt_or_ge (c % 65536) 0x800 with hb | hb
      · rw [utf8_write_eq_two _ hdlt (Or.inr ⟨ha, by omega⟩)]
        intro b hmem
        have hq : c % 65536 / 64 < 32 := by omega
        have hr : c % 65536 % 64 < 64 := Nat.mod_lt _ (by omega)
        simp at hmem
        rcases hmem with hmem | hmem <;> omega
      · rw [utf8_write_eq_three _ hb hdlt]
        intro b hmem
        have hk : c % 65536 / 4096 < 16 := by omega
        have hm2 : c % 65536 / 64 % 64 < 64 := Nat.mod_lt _ (by omega)
        have hr : c % 65536 % 64 < 64 := Nat.mod_lt _ (by omega)
        simp at hmem
        rcases hmem with hmem | hmem | hmem <;> omega

/-! Helper lemmas: decoding each encoder output shape. -/

theorem next_character_enc1 (d : Nat) (rest : List Nat) (h1 : 1 ≤ d) (h2 : d ≤ 0x7F) :
    UTF8.next_character (d :: rest) = (d, 1) := by
  have hch : byteAt (d :: rest) 0 = d := by
    simp [byteAt, Nat.mod_eq_of_lt (show d < 256 by omega)]
  have hsupp : UTF8.is_supplementary_character (d :: rest) = false := by
    simp only [UTF8.is_supplementary_character, decide_eq_false_iff_not]
    intro hcon
    rw [hch] at hcon
    exact absurd hcon.1 (by omega)
  simp only [UTF8.next_character, hsupp, Bool.false_eq_true, if_false]
  simp only [UTF8.next, hch, nat_shr_4]
  rw [if_neg (by omega), if_neg (by omega), if_neg (by omega)]

theorem next_character_enc2 (d : Nat) (rest : List Nat) (hlt : d < 65536)
    (h : d = 0 ∨ (0x80 ≤ d ∧ d ≤ 0x7FF)) :
    UTF8.next_character ((192 + d / 64) :: (128 + d % 64) :: rest) = (d, 2) := by
  have hq : d / 64 < 32 := by omega
  have hr : d % 64 < 64 := Nat.mod_lt _ (by omega)
  have hch : byteAt ((192 + d / 64) :: (128 + d % 64) :: rest) 0 = 192 + d / 64 := by
    simp [byteAt, Nat.mod_eq_of_lt (show 192 + d / 64 < 256 by omega)]
  have hch2 : byteAt ((192 + d / 64) :: (128 + d % 64) :: rest) 1 = 128 + d % 64 := by
    simp [byteAt, Nat.mod_eq_of_lt (show 128 + d % 64 < 256 by omega)]
  have hsupp : UTF8.is_supplementary_character ((192 + d / 64) :: (128 + d % 64) :: rest) = false := by
    simp only [UTF8.is_supplementary_character, decide_eq_false_iff_not]
    intro hcon
    rw [hch] at hcon
    exact absurd hcon.1 (by omega)
  simp only [UTF8.next_character, hsupp, Bool.false_eq_true, if_false]
  simp only [UTF8.next, hch, hch2, nat_shr_4]
  rw [if_neg (by omega), if_pos (by omega), and_C0_cont _ hr, if_pos rfl,
      and_1F_lead2 _ hq, and_3F_cont _ hr, nat_shl_6]
  have : d / 64 * 64 + d % 64 = d := by omega
  rw [this]

theorem next_character_enc3 (d : Nat) (h8 : 0x800 ≤ d) (hlt : d < 65536) :
    UTF8.next_character [224 + d / 4096, 128 + d / 64 % 64, 128 + d % 64] = (d, 3) := by
  have hk : d / 4096 < 16 := by omega
  have hm : d / 64 % 64 < 64 := Nat.mod_lt _ (by omega)
  have hr : d % 64 < 64 := Nat.mod_lt _ (by omega)
  have hch : byteAt [224 + d / 4096, 128 + d / 64 % 64, 128 + d % 64] 0 = 224 + d / 4096 := by
    simp [byteAt, Nat.mod_eq_of_lt (show 224 + d / 4096 < 256 by omega)]
  have hch2 : byteAt [224 + d / 4096, 128 + d / 64 % 64, 128 + d % 64] 1 = 128 + d / 64 % 64 := by
    simp [byteAt, Nat.mod_eq_of_lt (show 128 + d / 64 % 64 < 256 by omega)]
  have hch3 : byteAt [224 + d / 4096, 128 + d / 64 % 64, 128 + d % 64] 2 = 128 + d % 64 := by
    simp [byteAt, Nat.mod_eq_of_lt (show 128 + d % 64 < 256 by omega)]
  have hsupp : UTF8.is_supplementary_character
      [224 + d / 4096, 128 + d / 64 % 64, 128 + d % 64] = false := by
    simp only [UTF8.is_supplementary_character, decide_eq_false_iff_not]
    intro hcon
    have h3 := hcon.2.2.2.1
    rw [show byteAt [224 + d / 4096, 128 + d / 64 % 64, 128 + d % 64] 3 = 0 from by
      simp [byteAt]] at h3
    omega
  simp only [UTF8.next_character, hsupp, Bool.false_eq_true, if_false]
  simp only [UTF8.next, hch, hch2, hch3, nat_shr_4]
  rw [if_neg (by omega), if_neg (by omega), if_pos (by omega),
      and_C0_cont _ hm, if_pos rfl, and_C0_cont _ hr, if_pos rfl,
      and_0F_lead3 _ hk, and_3F_cont _ hm, and_3F_cont _ hr, nat_shl_6, nat_shl_6]
  have hdd : d / 64 / 64 = d / 4096 := by
    rw [Nat.div_div_eq_div_mul]
  have : (d / 4096 * 64 + d / 64 % 64) * 64 + d % 64 = d := by omega
  rw [this]

theorem next_character_supp (p : Nat) (hlo : 0x10000 ≤ p) (hhi : p ≤ 0x10FFFF) :
    UTF8.next_character (encode_cp p) = (p, 6) ∧ (encode_cp p).length = 6 := by
  obtain ⟨q, hq1, hq2⟩ : ∃ q, p = 65536 + q ∧ q ≤ 0xFFFFF := ⟨p - 65536, by omega, by omega⟩
  subst hq1
  have hsub : 65536 + q - 65536 = q := by omega
  have hunits : utf16_units (65536 + q) = [55296 + q / 1024, 56320 + q % 1024] := by
    simp only [utf16_units, nat_shr_10, nat_and_1023, hsub]
    rw [if_neg (by omega)]
  have hls : q % 1024 < 1024 := Nat.mod_lt _ (by omega)
  have hhs : q / 1024 ≤ 1023 := by omega
  have henc : encode_cp (65536 + q) =
      utf8_write (55296 + q / 1024) ++ (utf8_write (56320 + q % 1024) ++ []) := by
    simp [encode_cp, hunits, UNICODE.convert_to_utf8_bytes]
  rw [utf8_write_eq_three _ (by omega) (by omega),
      utf8_write_eq_three _ (by omega) (by omega)] at henc
  rw [show 224 + (55296 + q / 1024) / 4096 = 237 from by omega,
      show 128 + (55296 + q / 1024) / 64 % 64 = 160 + q / 1024 / 64 from by omega,
      show (55296 + q / 1024) % 64 = q / 1024 % 64 from by omega,
      show 224 + (56320 + q % 1024) / 4096 = 237 from by omega,
      show 128 + (56320 + q % 1024) / 64 % 64 = 176 + q % 1024 / 64 from by omega,
      show (56320 + q % 1024) % 64 = q % 1024 % 64 from by omega] at henc
  simp only [List.append_nil, List.cons_append, List.nil_append] at henc
  have hhs64 : q / 1024 / 64 < 16 := by omega
  have hhsm : q / 1024 % 64 < 64 := Nat.mod_lt _ (by omega)
  have hls64 : q % 1024 / 64 < 16 := by omega
  have hlsm : q % 1024 % 64 < 64 := Nat.mod_lt _ (by omega)
  set L : List Nat := [237, 160 + q / 1024 / 64, 128 + q / 1024 % 64,
      237, 176 + q % 1024 / 64, 128 + q % 1024 % 64] with hL
  have hb0 : byteAt L 0 = 237 := by simp [byteAt, hL]
  have hb1 : byteAt L 1 = 160 + q / 1024 / 64 := by
    simp [byteAt, hL, Nat.mod_eq_of_lt (show 160 + q / 1024 / 64 < 256 by omega)]
  have hb2 : byteAt L 2 = 128 + q / 1024 % 64 := by
    simp [byteAt, hL, Nat.mod_eq_of_lt (show 128 + q / 1024 % 64 < 256 by omega)]
  have hb3 : byteAt L 3 = 237 := by simp [byteAt, hL]
  have hb4 : byteAt L 4 = 176 + q % 1024 / 64 := by
    simp [byteAt, hL, Nat.mod_eq_of_lt (show 176 + q % 1024 / 64 < 256 by omega)]
  have hb5 : byteAt L 5 = 128 + q % 1024 % 64 := by
    simp [byteAt, hL, Nat.mod_eq_of_lt (show 128 + q % 1024 % 64 < 256 by omega)]
  have hsupp : UTF8.is_supplementary_character L = true := by
    simp only [UTF8.is_supplementary_character]
    apply decide_eq_true
    refine ⟨hb0, ?_, ?_, hb3, ?_, ?_⟩
    · rw [hb1]; exact and_F0_hi _ hhs64
    · rw [hb2]; exact and_C0_cont _ hhsm
    · rw [hb4]; exact and_F0_lo _ hls64
    · rw [hb5]; exact and_C0_cont _ hlsm
  constructor
  · rw [henc]
    simp only [UTF8.next_character, hsupp, if_true]
    simp only [UTF8.get_supplementary_character, hb1, hb2, hb4, hb5,
      and_0F_hi _ hhs64, and_3F_cont _ hhsm, and_0F_lo _ hls64, and_3F_cont _ hlsm,
      nat_shl_16, nat_shl_10, nat_shl_6]
    have : 65536 + q / 1024 / 64 * 65536 + q / 1024 % 64 * 1024
        + q % 1024 / 64 * 64 + q % 1024 % 64 = 65536 + q := by
      have h1 : q / 1024 / 64 * 64 + q / 1024 % 64 = q / 1024 := by omega
      have h2 : q % 1024 / 64 * 64 + q % 1024 % 64 = q % 1024 := by omega
      have h3 : q / 1024 * 1024 + q % 1024 = q := by omega
      omega
    rw [this]
  · rw [henc]
    rfl

/-- C1: round trip at the single-character level.  For every code point
in the claimed set (ASCII, the 2- and 3-byte boundary points and ranges,
0, and the supplementary endpoints), decoding the Modified UTF-8 bytes
produced by the encoder with `next_character` yields the code point
again, and the number of bytes consumed matches the byte-count table
(1 for 0x01..0x7F, 2 for 0 and 0x80..0x7FF, 3 for 0x800..0xFFFF, 6 for
supplementary code points). -/
theorem claim_C1 : ∀ p : Nat,
    ((1 ≤ p ∧ p ≤ 0x7F) ∨ p = 0 ∨ p = 0x80 ∨ p = 0x7FF ∨
      (0x800 ≤ p ∧ p ≤ 0xFFFF ∧ ¬(0xD800 ≤ p ∧ p ≤ 0xDFFF)) ∨
      p = 0x10000 ∨ p = 0x10FFFF) →
    UTF8.next_character (encode_cp p) = (p, mutf8_size_table p) ∧
      (encode_cp p).length = mutf8_size_table p := by
  intro p hp
  have hbmp : ∀ r : Nat, r < 65536 → encode_cp r = utf8_write r := by
    intro r hr
    simp [encode_cp, utf16_units, if_pos hr, UNICODE.convert_to_utf8_bytes]
  rcases hp with ⟨h1, h2⟩ | rfl | rfl | rfl | ⟨h1, h2, h3⟩ | rfl | rfl
  · have htab : mutf8_size_table p = 1 := by
      simp only [mutf8_size_table]
      rw [if_neg (by omega), if_pos (by omega)]
    rw [hbmp p (by omega), utf8_write_eq_one p h1 h2, htab]
    exact ⟨next_character_enc1 p [] h1 h2, rfl⟩
  · exact ⟨by decide, by decide⟩
  · exact ⟨by decide, by decide⟩
  · exact ⟨by decide, by decide⟩
  · have htab : mutf8_size_table p = 3 := by
      simp only [mutf8_size_table]
      rw [if_neg (by omega), if_neg (by omega), if_neg (by omega), if_pos (by omega)]
    rw [hbmp p (by omega), utf8_write_eq_three p h1 (by omega), htab]
    exact ⟨next_character_enc3 p h1 (by omega), rfl⟩
  · exact ⟨by decide, by decide⟩
  · exact ⟨by decide, by decide⟩

/-- Witness for C1 at the concrete code point U+20AC. -/
theorem claim_C1_witness :
    UTF8.next_character (encode_cp 0x20AC) = (0x20AC, mutf8_size_table 0x20AC) ∧
      (encode_cp 0x20AC).length = mutf8_size_table 0x20AC :=
  claim_C1 0x20AC (by decide)

/-- C3: the validator rejects a 3-byte sequence with a corrupted second
byte, an isolated continuation byte, and a literal 0x00 inside the
counted length, in both legacy and strict modes; in strict mode it also
rejects the 2-byte overlong encoding of an ASCII value, while the 2-byte
encoding C0 80 of 0 remains legal. -/
theorem claim_C3 :
    UTF8.is_legal_utf8 [0xE2, 0x42, 0xAC] 3 true = false
    ∧ UTF8.is_legal_utf8 [0xE2, 0x42, 0xAC] 3 false = false
    ∧ UTF8.is_legal_utf8 [0x41, 0x80, 0x41] 3 true = false
    ∧ UTF8.is_legal_utf8 [0x41, 0x80, 0x41] 3 false = false
    ∧ UTF8.is_legal_utf8 [0x41, 0x00, 0x41] 3 true = false
    ∧ UTF8.is_legal_utf8 [0x41, 0x00, 0x41] 3 false = false
    ∧ UTF8.is_legal_utf8 [0xC1, 0x81] 2 false = false
    ∧ UTF8.is_legal_utf8 [0xC0, 0x80] 2 false = true := by
  refine ⟨by decide, by decide, by decide, by decide, by decide, by decide, by decide, by decide⟩

/-- C7: on a lead byte with high nibble 8, 9, A, B or F, or on malformed
continuation bytes, `UTF8::next` does not fail: it returns the raw lead
byte and advances exactly 1; in every case it advances at least 1 and at
most 3 bytes. -/
theorem claim_C7 :
    (∀ s : List Nat,
      ((byteAt s 0 >>> 4 = 0x8 ∨ byteAt s 0 >>> 4 = 0x9 ∨ byteAt s 0 >>> 4 = 0xA ∨
        byteAt s 0 >>> 4 = 0xB ∨ byteAt s 0 >>> 4 = 0xF)
       ∨ ((byteAt s 0 >>> 4 = 0xC ∨ byteAt s 0 >>> 4 = 0xD) ∧ byteAt s 1 &&& 0xC0 ≠ 0x80)
       ∨ (byteAt s 0 >>> 4 = 0xE ∧
            (byteAt s 1 &&& 0xC0 ≠ 0x80 ∨ byteAt s 2 &&& 0xC0 ≠ 0x80))) →
      UTF8.next s = (byteAt s 0, 1))
    ∧ (∀ s : List Nat, 1 ≤ (UTF8.next s).2 ∧ (UTF8.next s).2 ≤ 3) := by
  constructor
  · intro s hs
    rcases hs with h | ⟨h, hc⟩ | ⟨h, hc⟩
    · simp only [UTF8.next]
      rw [if_pos h]
    · simp only [UTF8.next]
      rw [if_neg (by omega), if_pos h, if_neg hc]
    · simp only [UTF8.next]
      rw [if_neg (by omega), if_neg (by omega), if_pos h]
      rcases hc with hc | hc
      · rw [if_neg hc]
      · by_cases h2 : byteAt s 1 &&& 0xC0 = 0x80
        · rw [if_pos h2, if_neg hc]
        · rw [if_neg h2]
  · intro s
    simp only [UTF8.next]
    split_ifs <;> simp

/-- Witness for C7 at the concrete input [0x80]. -/
theorem claim_C7_witness :
    UTF8.next [0x80] = (byteAt [0x80] 0, 1)
    ∧ (1 ≤ (UTF8.next [0x80]).2 ∧ (UTF8.next [0x80]).2 ≤ 3) :=
  ⟨claim_C7.1 [0x80] (Or.inl (by decide)), claim_C7.2 [0x80]⟩

/-! Helper lemmas: the ASCII fast path of the validator. -/

theorem nat_le_or_left (x y : Nat) : x ≤ x ||| y :=
  Nat.le_of_testBit (by
    intro i hi
    simp [Nat.testBit_or, hi])

theorem nat_le_or_right (x y : Nat) : y ≤ x ||| y :=
  Nat.le_of_testBit (by
    intro i hi
    simp [Nat.testBit_or, hi])

theorem fast_term_lt_iff : ∀ v : Nat, v < 256 →
    (UTF8.fast_term v < 128 ↔ (0 < v ∧ v < 128)) := by decide

theorem fast_term_ascii (b : Nat) (h : UTF8.fast_term b < 128) :
    0 < b % 256 ∧ b % 256 < 128 := by
  have hmask : UTF8.fast_term b = UTF8.fast_term (b % 256) := by
    simp [UTF8.fast_term, Nat.mod_mod_of_dvd]
  rw [hmask] at h
  exact (fast_term_lt_iff (b % 256) (Nat.mod_lt _ (by omega))).1 h


/-! Helper lemmas: single steps of the byte-by-byte validator phase. -/

theorem is_supp_false_of_b0 (s : List Nat) (h : byteAt s 0 ≠ 0xED) :
    UTF8.is_supplementary_character s = false := by
  simp only [UTF8.is_supplementary_character, decide_eq_false_iff_not]
  intro hc
  exact h hc.1

theorem legal_scan_go_ascii (v47 : Bool) (fuel b : Nat) (rest : List Nat)
    (h1 : 0 < b % 256) (h2 : b % 256 < 128) :
    UTF8.legal_scan_go v47 (fuel + 1) (b :: rest) = UTF8.legal_scan_go v47 fuel rest := by
  conv_lhs => rw [UTF8.legal_scan_go.eq_def]
  simp only []
  rw [if_neg (by omega), if_pos (by omega)]

set_option maxHeartbeats 1000000 in
theorem legal_scan_go_fuel_eq (v47 : Bool) :
    ∀ (f1 : Nat) (s : List Nat) (f2 : Nat), s.length ≤ f1 → s.length ≤ f2 →
      UTF8.legal_scan_go v47 f1 s = UTF8.legal_scan_go v47 f2 s := by
  intro f1
  induction f1 with
  | zero =>
    intro s f2 h1 h2
    have hs : s = [] := List.length_eq_zero.mp (by omega)
    subst hs
    cases f2 <;> rfl
  | succ f ih =>
    intro s f2 h1 h2
    cases s with
    | nil => cases f2 <;> rfl
    | cons b rest =>
      cases f2 with
      | zero => simp at h2
      | succ g =>
        have hlen : rest.length ≤ f := by
          simp at h1
          omega
        have hlen2 : rest.length ≤ g := by
          simp at h2
          omega
        conv_lhs => rw [UTF8.legal_scan_go.eq_def]
        conv_rhs => rw [UTF8.legal_scan_go.eq_def]
        simp only []
        split_ifs
        · rfl
        · exact ih rest g hlen hlen2
        · apply ih <;> (simp [List.length_drop] ; omega)
        · rfl
        · apply ih <;> (simp [List.length_drop] ; omega)
        · rfl
        · rfl
        · apply ih <;> (simp [List.length_drop] ; omega)
        · rfl
        · rfl
        · exact ih rest g hlen hlen2

theorem legal_scan_skip_ascii (v47 : Bool) (b : Nat) (rest : List Nat)
    (h1 : 0 < b % 256) (h2 : b % 256 < 128) :
    UTF8.legal_scan v47 (b :: rest) = UTF8.legal_scan v47 rest := by
  simp only [UTF8.legal_scan, List.length_cons]
  exact legal_scan_go_ascii v47 rest.length b rest h1 h2

theorem fast_skip_scan_eq (v47 : Bool) :
    ∀ (k : Nat) (s : List Nat),
      UTF8.legal_scan v47 (UTF8.fast_skip s k) = UTF8.legal_scan v47 s := by
  intro k
  induction k with
  | zero =>
    intro s
    simp [UTF8.fast_skip]
  | succ k ih =>
    intro s
    match s with
    | [] => rfl
    | [b0] => rfl
    | [b0, b1] => rfl
    | [b0, b1, b2] => rfl
    | b0 :: b1 :: b2 :: b3 :: rest =>
      simp only [UTF8.fast_skip]
      by_cases hres : UTF8.fast_term b0 ||| UTF8.fast_term b1 |||
          UTF8.fast_term b2 ||| UTF8.fast_term b3 < 128
      · rw [if_pos hres]
        have ht0 : UTF8.fast_term b0 < 128 :=
          lt_of_le_of_lt (le_trans (le_trans (nat_le_or_left _ _) (nat_le_or_left _ _))
            (nat_le_or_left _ _)) hres
        have ht1 : UTF8.fast_term b1 < 128 :=
          lt_of_le_of_lt (le_trans (le_trans (nat_le_or_right _ _) (nat_le_or_left _ _))
            (nat_le_or_left _ _)) hres
        have ht2 : UTF8.fast_term b2 < 128 :=
          lt_of_le_of_lt (le_trans (nat_le_or_right _ _) (nat_le_or_left _ _)) hres
        have ht3 : UTF8.fast_term b3 < 128 :=
          lt_of_le_of_lt (nat_le_or_right _ _) hres
        obtain ⟨ha0, hb0⟩ := fast_term_ascii b0 ht0
        obtain ⟨ha1, hb1⟩ := fast_term_ascii b1 ht1
        obtain ⟨ha2, hb2⟩ := fast_term_ascii b2 ht2
        obtain ⟨ha3, hb3⟩ := fast_term_ascii b3 ht3
        rw [ih rest, legal_scan_skip_ascii v47 b0 _ ha0 hb0,
            legal_scan_skip_ascii v47 b1 _ ha1 hb1,
            legal_scan_skip_ascii v47 b2 _ ha2 hb2,
            legal_scan_skip_ascii v47 b3 _ ha3 hb3]
      · rw [if_neg hres]

theorem is_legal_eq_nofast (buffer : List Nat) (length : Nat) (v47 : Bool) :
    UTF8.is_legal_utf8 buffer length v47 = UTF8.is_legal_utf8_nofast buffer length v47 :=
  fast_skip_scan_eq v47 (length >>> 2) (buffer.take length)

/-- C8: the fast path never changes the verdict.  For every byte v, the
wrapped expression v OR (v - 1) has its high bit clear exactly when
0 < v < 128, and the full validator agrees with the variant that runs
the byte-by-byte phase from index 0 with no fast path. -/
theorem claim_C8 :
    (∀ v : Nat, v < 256 → (UTF8.fast_term v < 128 ↔ (0 < v ∧ v < 128)))
    ∧ (∀ (buffer : List Nat) (length : Nat) (v47 : Bool),
        UTF8.is_legal_utf8 buffer length v47 = UTF8.is_legal_utf8_nofast buffer length v47) :=
  ⟨fast_term_lt_iff, is_legal_eq_nofast⟩

/-- Witness for C8 at byte 65 and a concrete buffer. -/
theorem claim_C8_witness :
    (UTF8.fast_term 65 < 128 ↔ (0 < 65 ∧ 65 < 128))
    ∧ UTF8.is_legal_utf8 [0x41, 0x42, 0x43, 0x44, 0xC3] 5 true
        = UTF8.is_legal_utf8_nofast [0x41, 0x42, 0x43, 0x44, 0xC3] 5 true :=
  ⟨claim_C8.1 65 (by decide), claim_C8.2 [0x41, 0x42, 0x43, 0x44, 0xC3] 5 true⟩

/-! Helper lemmas: the validator steps over each encoder output shape. -/

theorem legal_scan_go_two (v47 : Bool) (fuel d : Nat) (rest : List Nat)
    (hlt : d < 65536) (h : d = 0 ∨ (0x80 ≤ d ∧ d ≤ 0x7FF)) :
    UTF8.legal_scan_go v47 (fuel + 1) ((192 + d / 64) :: (128 + d % 64) :: rest)
      = UTF8.legal_scan_go v47 fuel rest := by
  have hq : d / 64 < 32 := by omega
  have hr : d % 64 < 64 := Nat.mod_lt _ (by omega)
  have hs : UTF8.is_supplementary_character ((192 + d / 64) :: (128 + d % 64) :: rest) = false := by
    apply is_supp_false_of_b0
    rw [byteAt_cons_zero, Nat.mod_eq_of_lt (show 192 + d / 64 < 256 by omega)]
    omega
  have hb1 : byteAt ((128 + d % 64) :: rest) 0 = 128 + d % 64 := by
    simp [byteAt, Nat.mod_eq_of_lt (show 128 + d % 64 < 256 by omega)]
  conv_lhs => rw [UTF8.legal_scan_go.eq_def]
  simp only []
  rw [show (192 + d / 64) % 256 = 192 + d / 64 from Nat.mod_eq_of_lt (by omega)]
  rw [if_neg (by omega), if_neg (by omega), if_neg (by simp [hs]), nat_shr_4,
      if_neg (by omega), if_pos (by omega)]
  rw [hb1, and_C0_cont _ hr]
  rw [if_pos ⟨by simp, rfl⟩]
  rw [and_1F_lead2 _ hq, and_3F_cont _ hr, nat_shl_6,
      show d / 64 * 64 + d % 64 = d from by omega]
  rw [if_pos (by
    rcases h with h0 | ⟨hge, _⟩
    · exact Or.inr (Or.inl h0)
    · exact Or.inr (Or.inr hge))]
  rfl

theorem legal_scan_go_three (v47 : Bool) (fuel d : Nat) (rest : List Nat)
    (h8 : 0x800 ≤ d) (hlt : d < 65536)
    (hs : UTF8.is_supplementary_character
      ((224 + d / 4096) :: (128 + d / 64 % 64) :: (128 + d % 64) :: rest) = false) :
    UTF8.legal_scan_go v47 (fuel + 1)
        ((224 + d / 4096) :: (128 + d / 64 % 64) :: (128 + d % 64) :: rest)
      = UTF8.legal_scan_go v47 fuel rest := by
  have hk : d / 4096 < 16 := by omega
  have hm : d / 64 % 64 < 64 := Nat.mod_lt _ (by omega)
  have hr : d % 64 < 64 := Nat.mod_lt _ (by omega)
  have hb1 : byteAt ((128 + d / 64 % 64) :: (128 + d % 64) :: rest) 0 = 128 + d / 64 % 64 := by
    simp [byteAt, Nat.mod_eq_of_lt (show 128 + d / 64 % 64 < 256 by omega)]
  have hb2 : byteAt ((128 + d / 64 % 64) :: (128 + d % 64) :: rest) 1 = 128 + d % 64 := by
    simp [byteAt, Nat.mod_eq_of_lt (show 128 + d % 64 < 256 by omega)]
  conv_lhs => rw [UTF8.legal_scan_go.eq_def]
  simp only []
  rw [show (224 + d / 4096) % 256 = 224 + d / 4096 from Nat.mod_eq_of_lt (by omega)]
  rw [if_neg (by omega), if_neg (by omega), if_neg (by simp [hs]), nat_shr_4,
      if_neg (by omega), if_neg (by omega), if_pos (by omega)]
  rw [hb1, hb2, and_C0_cont _ hm, and_C0_cont _ hr]
  rw [if_pos ⟨by simp, rfl, rfl⟩]
  rw [and_0F_lead3 _ hk, and_3F_cont _ hm, and_3F_cont _ hr, nat_shl_12, nat_shl_6]
  have hdd : d / 64 / 64 = d / 4096 := by
    rw [Nat.div_div_eq_div_mul]
  rw [show d / 4096 * 4096 + d / 64 % 64 * 64 + d % 64 = d from by omega]
  rw [if_pos (Or.inr h8)]
  rfl

theorem legal_scan_go_supp_of (v47 : Bool) (fuel b : Nat) (rest : List Nat)
    (hlen : 5 < (b :: rest).length)
    (hsupp : UTF8.is_supplementary_character (b :: rest) = true) :
    UTF8.legal_scan_go v47 (fuel + 1) (b :: rest)
      = UTF8.legal_scan_go v47 fuel (rest.drop 5) := by
  have hb : b % 256 = 237 := of_decide_eq_true hsupp |>.1
  conv_lhs => rw [UTF8.legal_scan_go.eq_def]
  simp only []
  rw [hb, if_neg (by omega), if_neg (by omega), if_pos ⟨hlen, hsupp⟩]

theorem convert_to_utf8_bytes_cons (c : Nat) (cs : List Nat) :
    UNICODE.convert_to_utf8_bytes (c :: cs)
      = utf8_write c ++ UNICODE.convert_to_utf8_bytes cs := rfl

theorem utf8_size_bounds (c : Nat) :
    1 ≤ UNICODE.utf8_size c ∧ UNICODE.utf8_size c ≤ 3 := by
  simp only [UNICODE.utf8_size]
  split_ifs <;> omega

theorem convert_to_utf8_bytes_length (cs : List Nat) :
    (UNICODE.convert_to_utf8_bytes cs).length = UNICODE.utf8_length cs := by
  induction cs with
  | nil => rfl
  | cons c cs ih =>
    simp [convert_to_utf8_bytes_cons, UNICODE.utf8_length, utf8_write_length, ih]

theorem legal_scan_go_enc (v47 : Bool) :
    ∀ (n : Nat) (cs : List Nat) (fuel : Nat), cs.length ≤ n →
      (UNICODE.convert_to_utf8_bytes cs).length ≤ fuel →
      UTF8.legal_scan_go v47 fuel (UNICODE.convert_to_utf8_bytes cs) = true := by
  intro n
  induction n with
  | zero =>
    intro cs fuel h1 h2
    have hcs : cs = [] := List.length_eq_zero.mp (by omega)
    subst hcs
    cases fuel <;> rfl
  | succ n ih =>
    intro cs fuel h1 h2
    cases cs with
    | nil => cases fuel <;> rfl
    | cons c cs' =>
      have hdlt : c % 65536 < 65536 := Nat.mod_lt _ (by omega)
      have hwl : (utf8_write c).length = UNICODE.utf8_size c := utf8_write_length c
      have hsz := utf8_size_bounds c
      have hlen : (UNICODE.convert_to_utf8_bytes (c :: cs')).length
          = (utf8_write c).length + (UNICODE.convert_to_utf8_bytes cs').length := by
        simp [convert_to_utf8_bytes_cons]
      rcases Nat.lt_or_ge (c % 65536) 0x800 with hsmall | hbig
      · rcases Nat.eq_zero_or_pos (c % 65536) with h0 | h0
        · -- value 0: two-byte overlong form
          have hw : utf8_write c = [192 + c % 65536 / 64, 128 + c % 65536 % 64] := by
            rw [utf8_write_mask]
            exact utf8_write_eq_two _ hdlt (Or.inl h0)
          obtain ⟨f, rfl⟩ : ∃ f, fuel = f + 1 := by
            rw [hlen, hw] at h2
            exact ⟨fuel - 1, by simp at h2; omega⟩
          rw [convert_to_utf8_bytes_cons, hw, List.cons_append, List.cons_append,
              List.nil_append, legal_scan_go_two v47 f _ _ hdlt (Or.inl h0)]
          apply ih cs' f (by simp at h1; omega)
          rw [hlen, hw] at h2
          simp at h2
          omega
        · rcases Nat.lt_or_ge (c % 65536) 0x80 with ha | ha
          · -- ASCII
            have hw : utf8_write c = [c % 65536] := by
              rw [utf8_write_mask]
              exact utf8_write_eq_one _ h0 (by omega)
            obtain ⟨f, rfl⟩ : ∃ f, fuel = f + 1 := by
              rw [hlen, hw] at h2
              exact ⟨fuel - 1, by simp at h2; omega⟩
            rw [convert_to_utf8_bytes_cons, hw, List.cons_append, List.nil_append,
                legal_scan_go_ascii v47 f _ _
                  (by rw [Nat.mod_eq_of_lt (by omega)]; omega)
                  (by rw [Nat.mod_eq_of_lt (by omega)]; omega)]
            apply ih cs' f (by simp at h1; omega)
            rw [hlen, hw] at h2
            simp at h2
            omega
          · -- two-byte range 0x80..0x7FF
            have hw : utf8_write c = [192 + c % 65536 / 64, 128 + c % 65536 % 64] := by
              rw [utf8_write_mask]
              exact utf8_write_eq_two _ hdlt (Or.inr ⟨ha, by omega⟩)
            obtain ⟨f, rfl⟩ : ∃ f, fuel = f + 1 := by
              rw [hlen, hw] at h2
              exact ⟨fuel - 1, by simp at h2; omega⟩
            rw [convert_to_utf8_bytes_cons, hw, List.cons_append, List.cons_append,
                List.nil_append, legal_scan_go_two v47 f _ _ hdlt (Or.inr ⟨ha, by omega⟩)]
            apply ih cs' f (by simp at h1; omega)
            rw [hlen, hw] at h2
            simp at h2
            omega
      · -- three-byte range 0x800..0xFFFF
        have hw : utf8_write c
            = [224 + c % 65536 / 4096, 128 + c % 65536 / 64 % 64, 128 + c % 65536 % 64] := by
          rw [utf8_write_mask]
          exact utf8_write_eq_three _ hbig hdlt
        obtain ⟨f, rfl⟩ : ∃ f, fuel = f + 1 := by
          rw [hlen, hw] at h2
          exact ⟨fuel - 1, by simp at h2; omega⟩
        rw [convert_to_utf8_bytes_cons, hw, List.cons_append, List.cons_append,
            List.cons_append, List.nil_append]
        set tail := UNICODE.convert_to_utf8_bytes cs' with htail
        by_cases hsupp : UTF8.is_supplementary_character
            ((224 + c % 65536 / 4096) :: (128 + c % 65536 / 64 % 64)
              :: (128 + c % 65536 % 64) :: tail) = true
        · -- the head unit is a high surrogate followed by a matching low
          -- surrogate unit: the validator takes the 6-byte branch
          have hprop := of_decide_eq_true hsupp
          have hb3 := hprop.2.2.2.1
          rw [show (3 : Nat) = 2 + 1 from rfl, byteAt_cons_succ, byteAt_cons_succ,
              byteAt_cons_succ] at hb3
          -- hb3 : byteAt tail 0 = 0xED, so cs' begins with a 3-byte unit
          cases cs' with
          | nil =>
            rw [htail] at hb3
            simp [UNICODE.convert_to_utf8_bytes, byteAt] at hb3
          | cons c2 cs'' =>
            have hd2lt : c2 % 65536 < 65536 := Nat.mod_lt _ (by omega)
            have hb3' : byteAt (utf8_write c2) 0 = 0xED := by
              have : tail = utf8_write c2 ++ UNICODE.convert_to_utf8_bytes cs'' :=
                convert_to_utf8_bytes_cons c2 cs''
              rw [this] at hb3
              rcases Nat.lt_or_ge (c2 % 65536) 0x800 with hs2 | hs2
              · rcases Nat.eq_zero_or_pos (c2 % 65536) with h02 | h02
                · rw [utf8_write_mask, utf8_write_eq_two _ hd2lt (Or.inl h02)] at hb3 ⊢
                  exact hb3
                · rcases Nat.lt_or_ge (c2 % 65536) 0x80 with ha2 | ha2
                  · rw [utf8_write_mask, utf8_write_eq_one _ h02 (by omega)] at hb3 ⊢
                    exact hb3
                  · rw [utf8_write_mask,
                        utf8_write_eq_two _ hd2lt (Or.inr ⟨ha2, by omega⟩)] at hb3 ⊢
                    exact hb3
              · rw [utf8_write_mask, utf8_write_eq_three _ hs2 hd2lt] at hb3 ⊢
                exact hb3
            -- the lead byte of a 1- or 2-byte unit is below 0xED
            have hd2big : 0x800 ≤ c2 % 65536 := by
              by_contra hcon
              push_neg at hcon
              rcases Nat.eq_zero_or_pos (c2 % 65536) with h02 | h02
              · rw [utf8_write_mask, utf8_write_eq_two _ hd2lt (Or.inl h02)] at hb3'
                rw [byteAt_cons_zero, Nat.mod_eq_of_lt (by omega)] at hb3'
                omega
              · rcases Nat.lt_or_ge (c2 % 65536) 0x80 with ha2 | ha2
                · rw [utf8_write_mask, utf8_write_eq_one _ h02 (by omega)] at hb3'
                  rw [byteAt_cons_zero, Nat.mod_eq_of_lt (by omega)] at hb3'
                  omega
                · rw [utf8_write_mask,
                      utf8_write_eq_two _ hd2lt (Or.inr ⟨ha2, by omega⟩)] at hb3'
                  rw [byteAt_cons_zero, Nat.mod_eq_of_lt (by omega)] at hb3'
                  omega
            have hw2 : utf8_write c2 = [224 + c2 % 65536 / 4096,
                128 + c2 % 65536 / 64 % 64, 128 + c2 % 65536 % 64] := by
              rw [utf8_write_mask]
              exact utf8_write_eq_three _ hd2big hd2lt
            have htail2 : tail = (224 + c2 % 65536 / 4096) :: (128 + c2 % 65536 / 64 % 64)
                :: (128 + c2 % 65536 % 64) :: UNICODE.convert_to_utf8_bytes cs'' := by
              rw [htail, convert_to_utf8_bytes_cons, hw2]
              rfl
            rw [htail2]
            rw [htail2] at hsupp
            rw [legal_scan_go_supp_of v47 f _ _ (by simp) hsupp]
            have hdrop : ((128 + c % 65536 / 64 % 64) :: (128 + c % 65536 % 64)
                :: (224 + c2 % 65536 / 4096) :: (128 + c2 % 65536 / 64 % 64)
                :: (128 + c2 % 65536 % 64)
                :: UNICODE.convert_to_utf8_bytes cs'').drop 5
                = UNICODE.convert_to_utf8_bytes cs'' := rfl
            rw [hdrop]
            apply ih cs'' f (by simp at h1; omega)
            rw [hlen, hw] at h2
            rw [htail, convert_to_utf8_bytes_cons, hw2] at h2
            simp only [List.length_cons, List.length_append] at h2
            omega
        · -- no supplementary pattern: the validator takes the 3-byte branch
          rw [legal_scan_go_three v47 f _ _ hbig hdlt
            (Bool.not_eq_true _ ▸ eq_false_of_ne_true hsupp)]
          apply ih cs' f (by simp at h1; omega)
          rw [hlen, hw, htail] at h2
          simp only [List.length_cons, List.length_append] at h2
          omega

/-- C2: for every sequence of 16-bit code units (including 0, lone
surrogates and surrogate pairs), the byte buffer produced by the bulk
encoder is accepted by the validator over its counted length, in both
legacy and strict modes. -/
theorem claim_C2 (cs : List Nat) (v47 : Bool) :
    UTF8.is_legal_utf8 (UNICODE.convert_to_utf8_bytes cs)
      (UNICODE.convert_to_utf8_bytes cs).length v47 = true := by
  rw [is_legal_eq_nofast]
  simp only [UTF8.is_legal_utf8_nofast, List.take_length, UTF8.legal_scan]
  exact legal_scan_go_enc v47 cs.length cs _ le_rfl le_rfl

/-! Helper lemmas: unicode_length over the encoded stream. -/

theorem and_C0_ascii : ∀ x : Nat, x < 128 → x &&& 0xC0 ≠ 0x80 := by decide

theorem and_C0_lead : ∀ x : Nat, x < 256 → 192 ≤ x → x &&& 0xC0 = 0xC0 := by decide

theorem unicode_go_step1 (d : Nat) (rest : List Nat) (num : Nat) (lat multi : Bool)
    (prev : Nat) (h1 : 1 ≤ d) (h2 : d ≤ 0x7F) :
    UTF8.unicode_length_go (d :: rest) (num, lat, multi) prev
      = UTF8.unicode_length_go rest (num, lat, multi) d := by
  conv_lhs => rw [UTF8.unicode_length_go.eq_def]
  simp only []
  rw [Nat.mod_eq_of_lt (show d < 256 by omega)]
  rw [if_neg (and_C0_ascii d (by omega))]

theorem unicode_go_step2 (d : Nat) (rest : List Nat) (num : Nat) (lat multi : Bool)
    (prev : Nat) (hlt : d < 65536) (h : d = 0 ∨ (0x80 ≤ d ∧ d ≤ 0x7FF)) :
    UTF8.unicode_length_go ((192 + d / 64) :: (128 + d % 64) :: rest) (num, lat, multi) prev
      = UTF8.unicode_length_go rest
          (num - 1, lat && decide (d ≤ 0xFF), true) (128 + d % 64) := by
  have hq : d / 64 < 32 := by omega
  have hr : d % 64 < 64 := Nat.mod_lt _ (by omega)
  conv_lhs => rw [UTF8.unicode_length_go.eq_def]
  simp only []
  rw [Nat.mod_eq_of_lt (show 192 + d / 64 < 256 by omega)]
  rw [if_neg (by rw [and_C0_lead _ (by omega) (by omega)]; omega)]
  conv_lhs => rw [UTF8.unicode_length_go.eq_def]
  simp only []
  rw [Nat.mod_eq_of_lt (show 128 + d % 64 < 256 by omega)]
  rw [if_pos (and_C0_cont _ hr)]
  congr 1
  · congr 1
    by_cases h255 : d ≤ 0xFF
    · rw [if_neg (by omega), show decide (d ≤ 0xFF) = true from by simpa using h255,
          Bool.and_true]
    · rw [if_pos (by omega), show decide (d ≤ 0xFF) = false from by simpa using h255,
          Bool.and_false]

theorem unicode_go_step3 (d : Nat) (rest : List Nat) (num : Nat) (lat multi : Bool)
    (prev : Nat) (h8 : 0x800 ≤ d) (hlt : d < 65536) :
    UTF8.unicode_length_go
        ((224 + d / 4096) :: (128 + d / 64 % 64) :: (128 + d % 64) :: rest)
        (num, lat, multi) prev
      = UTF8.unicode_length_go rest (num - 2, false, true) (128 + d % 64) := by
  have hk : d / 4096 < 16 := by omega
  have hm : d / 64 % 64 < 64 := Nat.mod_lt _ (by omega)
  have hr : d % 64 < 64 := Nat.mod_lt _ (by omega)
  conv_lhs => rw [UTF8.unicode_length_go.eq_def]
  simp only []
  rw [Nat.mod_eq_of_lt (show 224 + d / 4096 < 256 by omega)]
  rw [if_neg (by rw [and_C0_lead _ (by omega) (by omega)]; omega)]
  conv_lhs => rw [UTF8.unicode_length_go.eq_def]
  simp only []
  rw [Nat.mod_eq_of_lt (show 128 + d / 64 % 64 < 256 by omega)]
  rw [if_pos (and_C0_cont _ hm), if_pos (by omega)]
  conv_lhs => rw [UTF8.unicode_length_go.eq_def]
  simp only []
  rw [Nat.mod_eq_of_lt (show 128 + d % 64 < 256 by omega)]
  rw [if_pos (and_C0_cont _ hr), if_neg (by omega)]
  have hsub : num - 1 - 1 = num - 2 := by omega
  rw [hsub]

theorem convert_len_ge (cs : List Nat) :
    cs.length ≤ (UNICODE.convert_to_utf8_bytes cs).length := by
  induction cs with
  | nil => simp [UNICODE.convert_to_utf8_bytes]
  | cons c cs ih =>
    have hb := utf8_size_bounds c
    have hw := utf8_write_length c
    simp only [convert_to_utf8_bytes_cons, List.length_append, List.length_cons]
    omega

theorem unicode_go_enc :
    ∀ (cs : List Nat) (num : Nat) (lat multi : Bool) (prev : Nat),
      ∃ (m lat2 : Bool),
        UTF8.unicode_length_go (UNICODE.convert_to_utf8_bytes cs) (num, lat, multi) prev
          = (num - ((UNICODE.convert_to_utf8_bytes cs).length - cs.length), lat2, m)
        ∧ (lat2 = true ↔ (lat = true ∧ ∀ c ∈ cs, c % 65536 ≤ 0xFF)) := by
  intro cs
  induction cs with
  | nil =>
    intro num lat multi prev
    refine ⟨multi, lat, ?_, by simp⟩
    have h1 : UNICODE.convert_to_utf8_bytes [] = ([] : List Nat) := rfl
    rw [h1, UTF8.unicode_length_go.eq_def]
    simp
  | cons c cs' ih =>
    intro num lat multi prev
    have hdlt : c % 65536 < 65536 := Nat.mod_lt _ (by omega)
    have hge := convert_len_ge cs'
    rcases Nat.lt_or_ge (c % 65536) 0x800 with hsmall | hbig
    · rcases Nat.eq_zero_or_pos (c % 65536) with h0 | h0
      · -- value 0: two-byte form
        obtain ⟨m, lat2, heq, hiff⟩ :=
          ih (num - 1) (lat && decide (c % 65536 ≤ 0xFF)) true (128 + c % 65536 % 64)
        refine ⟨m, lat2, ?_, ?_⟩
        · have hstream : UNICODE.convert_to_utf8_bytes (c :: cs')
              = (192 + c % 65536 / 64) :: (128 + c % 65536 % 64)
                :: UNICODE.convert_to_utf8_bytes cs' := by
            rw [convert_to_utf8_bytes_cons, utf8_write_mask,
                utf8_write_eq_two _ hdlt (Or.inl h0)]
            rfl
          rw [hstream, unicode_go_step2 _ _ _ _ _ _ hdlt (Or.inl h0), heq]
          have : num - 1 - ((UNICODE.convert_to_utf8_bytes cs').length - cs'.length)
              = num - (((192 + c % 65536 / 64) :: (128 + c % 65536 % 64)
                  :: UNICODE.convert_to_utf8_bytes cs').length - (c :: cs').length) := by
            simp only [List.length_cons]
            omega
          rw [this]
        · rw [hiff, List.forall_mem_cons, Bool.and_eq_true, decide_eq_true_eq]
          constructor
          · rintro ⟨⟨hl, hc⟩, hrest⟩
            exact ⟨hl, hc, hrest⟩
          · rintro ⟨hl, hc, hrest⟩
            exact ⟨⟨hl, hc⟩, hrest⟩
      · rcases Nat.lt_or_ge (c % 65536) 0x80 with ha | ha
        · -- ASCII
          obtain ⟨m, lat2, heq, hiff⟩ := ih num lat multi (c % 65536)
          refine ⟨m, lat2, ?_, ?_⟩
          · have hstream : UNICODE.convert_to_utf8_bytes (c :: cs')
                = (c % 65536) :: UNICODE.convert_to_utf8_bytes cs' := by
              rw [convert_to_utf8_bytes_cons, utf8_write_mask,
                  utf8_write_eq_one _ h0 (by omega)]
              rfl
            rw [hstream, unicode_go_step1 _ _ _ _ _ _ h0 (by omega), heq]
            have : num - ((UNICODE.convert_to_utf8_bytes cs').length - cs'.length)
                = num - (((c % 65536) :: UNICODE.convert_to_utf8_bytes cs').length
                    - (c :: cs').length) := by
              simp only [List.length_cons]
              omega
            rw [this]
          · rw [hiff, List.forall_mem_cons]
            constructor
            · rintro ⟨hl, hrest⟩
              exact ⟨hl, by omega, hrest⟩
            · rintro ⟨hl, _, hrest⟩
              exact ⟨hl, hrest⟩
        · -- two-byte range 0x80..0x7FF
          obtain ⟨m, lat2, heq, hiff⟩ :=
            ih (num - 1) (lat && decide (c % 65536 ≤ 0xFF)) true (128 + c % 65536 % 64)
          refine ⟨m, lat2, ?_, ?_⟩
          · have hstream : UNICODE.convert_to_utf8_bytes (c :: cs')
                = (192 + c % 65536 / 64) :: (128 + c % 65536 % 64)
                  :: UNICODE.convert_to_utf8_bytes cs' := by
              rw [convert_to_utf8_bytes_cons, utf8_write_mask,
                  utf8_write_eq_two _ hdlt (Or.inr ⟨ha, by omega⟩)]
              rfl
            rw [hstream, unicode_go_step2 _ _ _ _ _ _ hdlt (Or.inr ⟨ha, by omega⟩), heq]
            have : num - 1 - ((UNICODE.convert_to_utf8_bytes cs').length - cs'.length)
                = num - (((192 + c % 65536 / 64) :: (128 + c % 65536 % 64)
                    :: UNICODE.convert_to_utf8_bytes cs').length - (c :: cs').length) := by
              simp only [List.length_cons]
              omega
            rw [this]
          · rw [hiff, List.forall_mem_cons, Bool.and_eq_true, decide_eq_true_eq]
            constructor
            · rintro ⟨⟨hl, hc⟩, hrest⟩
              exact ⟨hl, hc, hrest⟩
            · rintro ⟨hl, hc, hrest⟩
              exact ⟨⟨hl, hc⟩, hrest⟩
    · -- three-byte range
      obtain ⟨m, lat2, heq, hiff⟩ := ih (num - 2) false true (128 + c % 65536 % 64)
      refine ⟨m, lat2, ?_, ?_⟩
      · have hstream : UNICODE.convert_to_utf8_bytes (c :: cs')
            = (224 + c % 65536 / 4096) :: (128 + c % 65536 / 64 % 64)
              :: (128 + c % 65536 % 64) :: UNICODE.convert_to_utf8_bytes cs' := by
          rw [convert_to_utf8_bytes_cons, utf8_write_mask, utf8_write_eq_three _ hbig hdlt]
          rfl
        rw [hstream, unicode_go_step3 _ _ _ _ _ _ hbig hdlt, heq]
        have : num - 2 - ((UNICODE.convert_to_utf8_bytes cs').length - cs'.length)
            = num - (((224 + c % 65536 / 4096) :: (128 + c % 65536 / 64 % 64)
                :: (128 + c % 65536 % 64)
                :: UNICODE.convert_to_utf8_bytes cs').length - (c :: cs').length) := by
          simp only [List.length_cons]
          omega
        rw [this]
      · rw [hiff]
        simp only [List.forall_mem_cons]
        constructor
        · rintro ⟨hl, _⟩
          exact absurd hl (by simp)
        · rintro ⟨_, hc, _⟩
          omega

/-- C4: the length-known `unicode_length` applied to the bulk-encoder
output returns exactly the number of code units encoded, and reports
is_latin1 true exactly when every encoded code unit was at most 0xFF. -/
theorem claim_C4 (cs : List Nat) (hcs : ∀ c ∈ cs, c < 65536) :
    (UTF8.unicode_length (UNICODE.convert_to_utf8_bytes cs)
        (UNICODE.convert_to_utf8_bytes cs).length).1 = cs.length
    ∧ ((UTF8.unicode_length (UNICODE.convert_to_utf8_bytes cs)
        (UNICODE.convert_to_utf8_bytes cs).length).2.1 = true ↔ ∀ c ∈ cs, c ≤ 0xFF) := by
  obtain ⟨m, lat2, heq, hiff⟩ :=
    unicode_go_enc cs (UNICODE.convert_to_utf8_bytes cs).length true false 0
  have hge := convert_len_ge cs
  simp only [UTF8.unicode_length, List.take_length, heq]
  constructor
  · omega
  · rw [hiff]
    constructor
    · rintro ⟨_, hall⟩ c hc
      have := hall c hc
      rw [Nat.mod_eq_of_lt (hcs c hc)] at this
      exact this
    · intro hall
      refine ⟨rfl, fun c hc => ?_⟩
      rw [Nat.mod_eq_of_lt (hcs c hc)]
      exact hall c hc

/-- Witness for C4 at the concrete unit sequence [0x41, 0x100]. -/
theorem claim_C4_witness :
    (UTF8.unicode_length (UNICODE.convert_to_utf8_bytes [0x41, 0x100])
        (UNICODE.convert_to_utf8_bytes [0x41, 0x100]).length).1 = ([0x41, 0x100] : List Nat).length
    ∧ ((UTF8.unicode_length (UNICODE.convert_to_utf8_bytes [0x41, 0x100])
        (UNICODE.convert_to_utf8_bytes [0x41, 0x100]).length).2.1 = true
        ↔ ∀ c ∈ ([0x41, 0x100] : List Nat), c ≤ 0xFF) :=
  claim_C4 [0x41, 0x100] (by decide)

/-! Helper lemmas: buffer writes for the truncation repairer. -/

theorem byteAt_append_ge (l l' : List Nat) (n : Nat) (h : l.length ≤ n) :
    byteAt (l ++ l') n = byteAt l' (n - l.length) := by
  obtain ⟨i, rfl⟩ : ∃ i, n = l.length + i := ⟨n - l.length, by omega⟩
  rw [byteAt_append_right]
  congr 1
  omega

theorem set_append_len (l l' : List Nat) (v : Nat) :
    (l ++ l').set l.length v = l ++ l'.set 0 v := by
  induction l with
  | nil => simp
  | cons a t ih => simp [List.set, ih]

theorem truncate_loop_start (buffer : List Nat) (index : Nat) :
    UTF8.truncate_loop buffer (index + 1)
      = if is_starting_byte (byteAt buffer (index + 1)) = true then
          buffer.set
            (if byteAt buffer (index + 1) = 0xED ∧ 3 ≤ index + 1
                ∧ byteAt buffer (index + 1 - 3) = 0xED
                ∧ byteAt buffer (index + 1 - 2) &&& 0xF0 = 0xA0 then
              index + 1 - 3
            else index + 1) 0
        else UTF8.truncate_loop buffer index := by
  conv_lhs => rw [UTF8.truncate_loop.eq_def]

/-- C5: when the backward scan of `truncate_to_legal_utf8` finds the
candidate starting byte 0xED with at least 3 preceding bytes forming a
complete high-surrogate half (0xED, 0xA0..0xAF, 0x80..0xBF), the
truncation boundary moves back 3 more bytes to the start of the whole
6-byte unit before the NUL is written: a buffer ending with a complete
high-surrogate half followed by a partial 0xED and the terminator loses
all 4 trailing bytes. -/
theorem claim_C5 (init : List Nat) (a b : Nat) (hinit : 1 ≤ init.length)
    (ha1 : 0xA0 ≤ a) (ha2 : a ≤ 0xAF) (hb1 : 0x80 ≤ b) (hb2 : b ≤ 0xBF) :
    UTF8.truncate_to_legal_utf8 (init ++ [0xED, a, b, 0xED, 0]) (init.length + 5)
      = init ++ [0, a, b, 0xED, 0] := by
  have hn3 : byteAt (init ++ [0xED, a, b, 0xED, 0]) (init.length + 3) = 0xED := by
    rw [byteAt_append_right]
    rfl
  have hn0 : byteAt (init ++ [0xED, a, b, 0xED, 0]) init.length = 0xED := by
    rw [byteAt_append_ge _ _ _ le_rfl, Nat.sub_self]
    rfl
  have hn1 : byteAt (init ++ [0xED, a, b, 0xED, 0]) (init.length + 1) = a := by
    rw [byteAt_append_right, byteAt_cons_succ, byteAt_cons_zero,
        Nat.mod_eq_of_lt (by omega)]
  simp only [UTF8.truncate_to_legal_utf8]
  rw [show init.length + 5 - 2 = init.length + 3 from by omega, hn3]
  rw [if_neg (by omega)]
  rw [show init.length + 3 = init.length + 2 + 1 from rfl, truncate_loop_start]
  rw [show init.length + 2 + 1 = init.length + 3 from rfl, hn3]
  rw [if_pos (by decide)]
  rw [if_pos ⟨rfl, by omega,
    by rw [show init.length + 3 - 3 = init.length from by omega, hn0],
    by
      rw [show init.length + 3 - 2 = init.length + 1 from by omega, hn1,
          show a = 160 + (a - 160) from by omega]
      exact and_F0_hi _ (by omega)⟩]
  rw [show init.length + 3 - 3 = init.length from by omega, set_append_len]
  rfl

/-- Witness for C5 with one leading byte and the concrete surrogate half
ED A0 BD. -/
theorem claim_C5_witness :
    UTF8.truncate_to_legal_utf8 ([0x41] ++ [0xED, 0xA0, 0xBD, 0xED, 0])
        (([0x41] : List Nat).length + 5)
      = [0x41] ++ [0, 0xA0, 0xBD, 0xED, 0] :=
  claim_C5 [0x41] 0xA0 0xBD (by decide) (by decide) (by decide) (by decide) (by decide)

/-- C6 counterexample: a buffer that satisfies the stated preconditions
(length > 5, NUL-terminated, ending with the partial sequence E2 82)
but whose leading bytes are garbage continuation bytes.  The repairer
still truncates exactly before E2, but the counted contents of the
result do not pass the validator, refuting the claim as stated for
arbitrary buffers. -/
theorem claim_C6_counterexample :
    UTF8.truncate_to_legal_utf8 [0x80, 0x80, 0x80, 0xE2, 0x82, 0] 6
      = [0x80, 0x80, 0x80, 0, 0x82, 0]
    ∧ UTF8.is_legal_utf8 [0x80, 0x80, 0x80] 3 true = false
    ∧ UTF8.is_legal_utf8 [0x80, 0x80, 0x80] 3 false = false :=
  ⟨by decide, by decide, by decide⟩

/-- C6 (amended): for every buffer satisfying the preconditions whose
last bytes before the terminator are the partial 3-byte sequence E2 82,
and whose bytes before E2 are themselves legal Modified UTF-8,
`truncate_to_legal_utf8` overwrites the E2 byte with 0, so the buffer
ends exactly before E2, is still NUL-terminated, bytes before the new
terminator are unchanged, and the counted contents pass the validator. -/
theorem claim_C6 (init : List Nat) (v47 : Bool) (hlen : 2 < init.length)
    (hleg : UTF8.is_legal_utf8 init init.length v47 = true) :
    UTF8.truncate_to_legal_utf8 (init ++ [0xE2, 0x82, 0]) (init.length + 3)
      = init ++ [0, 0x82, 0]
    ∧ (init ++ [0, 0x82, 0]).take init.length = init
    ∧ UTF8.is_legal_utf8 ((init ++ [0, 0x82, 0]).take init.length) init.length v47 = true := by
  have htake : (init ++ [0, 0x82, 0]).take init.length = init := by
    rw [List.take_append_of_le_length le_rfl, List.take_length]
  refine ⟨?_, htake, by rw [htake]; exact hleg⟩
  have hn1 : byteAt (init ++ [0xE2, 0x82, 0]) (init.length + 1) = 0x82 := by
    rw [byteAt_append_right]
    rfl
  have hn0 : byteAt (init ++ [0xE2, 0x82, 0]) init.length = 0xE2 := by
    rw [byteAt_append_ge _ _ _ le_rfl, Nat.sub_self]
    rfl
  simp only [UTF8.truncate_to_legal_utf8]
  rw [show init.length + 3 - 2 = init.length + 1 from by omega, hn1]
  rw [if_neg (by omega)]
  rw [truncate_loop_start, hn1]
  rw [if_neg (by decide)]
  rw [show init.length = init.length - 1 + 1 from by omega, truncate_loop_start,
      show init.length - 1 + 1 = init.length from by omega, hn0]
  rw [if_pos (by decide)]
  rw [if_neg (by simp)]
  rw [set_append_len]
  rfl

/-- Witness for the amended C6 at a concrete legal ASCII head. -/
theorem claim_C6_witness :
    UTF8.truncate_to_legal_utf8 ([0x41, 0x42, 0x43] ++ [0xE2, 0x82, 0])
        (([0x41, 0x42, 0x43] : List Nat).length + 3)
      = [0x41, 0x42, 0x43] ++ [0, 0x82, 0]
    ∧ (([0x41, 0x42, 0x43] : List Nat) ++ [0, 0x82, 0]).take
        ([0x41, 0x42, 0x43] : List Nat).length = [0x41, 0x42, 0x43]
    ∧ UTF8.is_legal_utf8
        ((([0x41, 0x42, 0x43] : List Nat) ++ [0, 0x82, 0]).take
          ([0x41, 0x42, 0x43] : List Nat).length)
        ([0x41, 0x42, 0x43] : List Nat).length true = true :=
  claim_C6 [0x41, 0x42, 0x43] true (by decide) (by decide)

/-! Helper lemmas: the bounded writer. -/

theorem convert_bytes_ne_zero (cs : List Nat) :
    ∀ b ∈ UNICODE.convert_to_utf8_bytes cs, b ≠ 0 := by
  induction cs with
  | nil => simp [UNICODE.convert_to_utf8_bytes]
  | cons c cs ih =>
    intro b hb
    rw [convert_to_utf8_bytes_cons] at hb
    rcases List.mem_append.mp hb with hb | hb
    · have := utf8_write_mem c b hb
      omega
    · exact ih b hb

theorem cstrlen_append_zero (l : List Nat) (h : ∀ b ∈ l, b ≠ 0) :
    cstrlen (l ++ [0]) = l.length := by
  induction l with
  | nil => rfl
  | cons a t ih =>
    have ha : a ≠ 0 := h a (by simp)
    have iht := ih (fun b hb => h b (by simp [hb]))
    simp only [cstrlen] at iht ⊢
    simp only [ne_eq, decide_not] at iht
    simp [List.takeWhile_cons, ha, iht]

theorem as_utf8_go_spec :
    ∀ (base : List Nat) (buflen : Nat), 0 < buflen →
      ∃ k, k ≤ base.length
        ∧ UNICODE.as_utf8_go base buflen = UNICODE.convert_to_utf8_bytes (base.take k)
        ∧ (UNICODE.as_utf8_go base buflen).length + 1 ≤ buflen
        ∧ (k < base.length →
            buflen ≤ (UNICODE.convert_to_utf8_bytes (base.take k)).length
              + UNICODE.utf8_size (base.getD k 0)) := by
  intro base
  induction base with
  | nil =>
    intro buflen h
    refine ⟨0, le_rfl, rfl, ?_, ?_⟩
    · simpa [UNICODE.as_utf8_go] using h
    · intro hcon
      simp at hcon
  | cons c rest ih =>
    intro buflen h
    by_cases hsz : buflen ≤ UNICODE.utf8_size c
    · refine ⟨0, by simp, ?_, ?_, ?_⟩
      · simp only [UNICODE.as_utf8_go]
        rw [if_pos hsz]
        rfl
      · simp only [UNICODE.as_utf8_go]
        rw [if_pos hsz]
        simpa using h
      · intro _
        simpa [UNICODE.convert_to_utf8_bytes] using hsz
    · push_neg at hsz
      obtain ⟨k, hk1, hk2, hk3, hk4⟩ := ih (buflen - UNICODE.utf8_size c) (by omega)
      have hgo : UNICODE.as_utf8_go (c :: rest) buflen
          = utf8_write c ++ UNICODE.as_utf8_go rest (buflen - UNICODE.utf8_size c) := by
        simp only [UNICODE.as_utf8_go]
        rw [if_neg (by omega)]
      refine ⟨k + 1, by simpa using hk1, ?_, ?_, ?_⟩
      · rw [hgo, hk2, List.take_succ_cons, convert_to_utf8_bytes_cons]
      · rw [hgo]
        simp only [List.length_append, utf8_write_length]
        omega
      · intro hklt
        have hk4' := hk4 (by simpa using Nat.lt_of_succ_lt_succ hklt)
        rw [List.take_succ_cons, convert_to_utf8_bytes_cons]
        simp only [List.length_append, utf8_write_length, List.getD_cons_succ]
        omega

theorem as_utf8_go_full (base : List Nat) :
    UNICODE.as_utf8_go base (UNICODE.utf8_length base + 1)
      = UNICODE.convert_to_utf8_bytes base := by
  induction base with
  | nil => rfl
  | cons c rest ih =>
    have hsz := utf8_size_bounds c
    have hlen : UNICODE.utf8_length (c :: rest)
        = UNICODE.utf8_size c + UNICODE.utf8_length rest := rfl
    simp only [UNICODE.as_utf8_go, hlen]
    rw [if_neg (by omega),
        show UNICODE.utf8_size c + UNICODE.utf8_length rest + 1 - UNICODE.utf8_size c
          = UNICODE.utf8_length rest + 1 from by omega, ih]
    rfl

/-- C9: with positive capacity, the bounded writer emits the encodings
of a prefix of the input in order, stops before the first unit whose
encoded size does not fit strictly below the remaining capacity
(reserving one byte for the terminator), always appends the 0x00
terminator, and never writes beyond the capacity; with the capacity the
auto-sizing overload allocates (utf8_length plus one), the written
string has exactly utf8_length nonzero bytes before its terminator,
which is the length prediction the overload asserts. -/
theorem claim_C9 (base : List Nat) (buflen : Nat) (h : 0 < buflen) :
    ((UNICODE.as_utf8 base buflen).length ≤ buflen
      ∧ ∃ k, k ≤ base.length
          ∧ UNICODE.as_utf8 base buflen
              = UNICODE.convert_to_utf8_bytes (base.take k) ++ [0]
          ∧ (k < base.length →
              buflen ≤ (UNICODE.convert_to_utf8_bytes (base.take k)).length
                + UNICODE.utf8_size (base.getD k 0)))
    ∧ cstrlen (UNICODE.as_utf8 base (UNICODE.utf8_length base + 1))
        = UNICODE.utf8_length base := by
  constructor
  · obtain ⟨k, hk1, hk2, hk3, hk4⟩ := as_utf8_go_spec base buflen h
    constructor
    · simp only [UNICODE.as_utf8, List.length_append, List.length_cons, List.length_nil]
      omega
    · exact ⟨k, hk1, by rw [UNICODE.as_utf8, hk2], hk4⟩
  · rw [UNICODE.as_utf8, as_utf8_go_full,
        cstrlen_append_zero _ (convert_bytes_ne_zero base), convert_to_utf8_bytes_length]

/-- Witness for C9 at the concrete input [0x41] with capacity 3. -/
theorem claim_C9_witness :
    ((UNICODE.as_utf8 [0x41] 3).length ≤ 3
      ∧ ∃ k, k ≤ ([0x41] : List Nat).length
          ∧ UNICODE.as_utf8 [0x41] 3
              = UNICODE.convert_to_utf8_bytes (([0x41] : List Nat).take k) ++ [0]
          ∧ (k < ([0x41] : List Nat).length →
              3 ≤ (UNICODE.convert_to_utf8_bytes (([0x41] : List Nat).take k)).length
                + UNICODE.utf8_size (([0x41] : List Nat).getD k 0)))
    ∧ cstrlen (UNICODE.as_utf8 [0x41] (UNICODE.utf8_length [0x41] + 1))
        = UNICODE.utf8_length [0x41] :=
  claim_C9 [0x41] 3 (by decide)

/-- C10: the first scanning loop of `UTF8::from_quoted_ascii` never
advances its pointer, so on the NUL-terminated input "A" (byte 0x41,
printable ASCII) the loop runs forever: for every amount of fuel the
loop model fails to terminate.  This contradicts the specified
linear-time termination of every operation; the upstream version of the
loop advances the pointer on every iteration. -/
theorem claim_C10 : ∀ fuel : Nat,
    UTF8.from_quoted_ascii_scan [0x41, 0] 0 fuel = none := by
  intro fuel
  induction fuel with
  | zero => rfl
  | succ f ih =>
    conv_lhs => rw [UTF8.from_quoted_ascii_scan.eq_def]
    simp only []
    rw [if_neg (by decide), if_neg (by decide)]
    exact ih
